import Mathlib

/-!
Verification of the LadderNetwork core pipeline.

The repository's Python entry point `src/web/app.py` exposes
`parse_transfer_function(numerator_coeffs, denominator_coeffs)`, which

  * rejects empty or identically-zero coefficient arrays,
  * trims trailing zero coefficients (`trim_trailing_zeros`),
  * runs the positive-real realizability rule battery (rules 1, 5, 6, 7 are
    computed directly on the coefficient arrays; rules 2, 3, 4 are computed by
    `rule234_roots` through numpy's floating-point root finder, which we keep
    abstract as a parameter `rc` of the embedding),
  * short-circuits trivial transfer functions to closed-form tokens,
  * otherwise delegates the continued-fraction expansion to an external C++
    program (subprocess); that external collaborator is kept abstract as a
    parameter `synth` of the embedding,
  * post-processes the reply, with all exceptions converted to error returns.

Python numeric values reaching the coefficient arrays are modelled by `Coeff`
(finite rationals, the two float infinities, NaN, and complex numbers); float
comparison/absolute-value semantics for these special values are reproduced
case by case.  Textual ladder tokens are modelled by the tagged type `Token`
covering exactly the shapes the code's regular expressions distinguish.

The continued-fraction synthesizer itself (C++ `ContinuedFraction.cpp`) is not
part of the Python sources; it is modelled from the specification (section 4.3)
at the end of the definitions, over exact rational polynomials.
-/

namespace LadderNetwork

/-- Model of a Python numeric value that can appear in a coefficient array:
a finite real (kept exact as a rational), `float('inf')`, `float('-inf')`,
`float('nan')`, or a `complex` value. -/
inductive Coeff where
  | num (x : ℚ)
  | inf
  | ninf
  | nan
  | cpx (re im : ℚ)
deriving DecidableEq

/-- Python `x == 0` (equivalently `abs(x) == 0`) on a coefficient: false for
the infinities and for NaN (any comparison with NaN is false), and true for a
complex value exactly when both parts vanish. -/
def coeffEqZero : Coeff → Bool
  | .num x => x == 0
  | .inf => false
  | .ninf => false
  | .nan => false
  | .cpx r i => r == 0 && i == 0

/-- Python `abs(x) > 0` on a coefficient: true for the infinities, false for
NaN (`abs(nan) > 0` is false), true for a nonzero complex magnitude.  Note this
is not the negation of `coeffEqZero` on NaN, faithfully to float semantics. -/
def coeffAbsPos : Coeff → Bool
  | .num x => !(x == 0)
  | .inf => true
  | .ninf => true
  | .nan => false
  | .cpx r i => !(r == 0 && i == 0)

/-- One coefficient failing the rule-1 test of `rule1_all_real_positive`:
a `complex` instance fails immediately; otherwise the value is converted with
`float(...)` and fails iff it compares `< 0`.  `float('inf') < 0` and
`float('nan') < 0` are both false, so `inf` and `nan` PASS this test;
`float('-inf') < 0` is true, so `-inf` fails. -/
def rule1Bad : Coeff → Bool
  | .num x => decide (x < 0)
  | .inf => false
  | .ninf => true
  | .nan => false
  | .cpx _ _ => true

/-- The literal `1e-12` tolerance used by the trivial-form shortcuts and the
token normalizer, idealized as the exact rational. -/
def tol12 : ℚ := 1 / 1000000000000

/-- Python `abs(scale - 1) < 1e-12` on a coefficient value (`scale` can be any
numeric value produced by `safe_div`): false for the infinities and NaN. -/
def near1Strict : Coeff → Bool
  | .num x => decide (|x - 1| < tol12)
  | .cpx r i => decide ((r - 1) ^ 2 + i ^ 2 < tol12 ^ 2)
  | _ => false

/-- Model of `safe_div(a, b)`: Python `a / b` with any exception (in practice
`ZeroDivisionError`) returning `None`.  Special float values follow IEEE
semantics: a finite value divided by an infinity is `0.0`, an infinity divided
by a positive (negative) finite value keeps (flips) its sign, any operation
with NaN is NaN, and division by zero raises.  Divisions mixing `complex` with
the special float values cannot be reached behind rule 1 and are modelled as
NaN. -/
def safe_div : Coeff → Coeff → Option Coeff
  | a, .num b =>
    if b == 0 then none
    else
      match a with
      | .num x => some (.num (x / b))
      | .inf => some (if 0 < b then .inf else .ninf)
      | .ninf => some (if 0 < b then .ninf else .inf)
      | .nan => some .nan
      | .cpx r i => some (.cpx (r / b) (i / b))
  | a, .inf =>
    match a with
    | .num _ => some (.num 0)
    | _ => some .nan
  | a, .ninf =>
    match a with
    | .num _ => some (.num 0)
    | _ => some .nan
  | _, .nan => some .nan
  | a, .cpx r i =>
    if r == 0 && i == 0 then none
    else
      match a with
      | .num x =>
        some (.cpx (x * r / (r ^ 2 + i ^ 2)) (-(x * i) / (r ^ 2 + i ^ 2)))
      | .cpx p q =>
        some (.cpx ((p * r + q * i) / (r ^ 2 + i ^ 2))
                   ((q * r - p * i) / (r ^ 2 + i ^ 2)))
      | _ => some .nan

/-- Model of `trim_trailing_zeros`: drop trailing coefficients with
`abs(c) == 0`, but never drop index 0 (`while i > 0`), so an all-zero array
collapses to its first element. -/
def trim_trailing_zeros (arr : List Coeff) : List Coeff :=
  match arr.reverse.dropWhile coeffEqZero with
  | [] => arr.take 1
  | l => l.reverse

/-- Model of the inner helper `lowest_degree`: index of the first coefficient
with `abs(c) > 0`. -/
def lowest_degree (arr : List Coeff) : Option Nat :=
  arr.findIdx? coeffAbsPos

/-- The side (numerator or denominator) a violation record refers to. -/
inductive Side where
  | N
  | D
deriving DecidableEq

/-- A realizability-rule violation record, one per `failures.append(...)` call
site in `parse_transfer_function`.  Rules 2, 3, 4 are produced by the abstract
root-check collaborator and tagged with a code. -/
inductive Violation where
  | rule1 (s : Side)
  | rule5NoCoeffs (s : Side)
  | rule5Zero (s : Side)
  | rule5Parity (s : Side)
  | rule6
  | rule7
  | rootRule (s : Side) (code : Nat)
deriving DecidableEq

/-- Model of `rule1_all_real_positive`: a single rule-1 record is appended iff
some coefficient fails the per-coefficient test (the Python loop breaks at the
first bad coefficient and appends one message). -/
def rule1_all_real_positive (s : Side) (arr : List Coeff) : List Violation :=
  if arr.any rule1Bad then [.rule1 s] else []

/-- The exponents with `abs(arr[i]) > 0`, as computed inside
`rule5_parity_missing_ok`. -/
def nonzeroExps (arr : List Coeff) : List Nat :=
  (List.range arr.length).filter (fun i => coeffAbsPos (arr.getD i (.num 0)))

/-- Model of `rule5_parity_missing_ok`: with `hi = len(arr) - 1` and `lo` the
lowest nonzero index, if at most one exponent is nonzero the rule passes;
otherwise, if some position in `lo..hi` has a zero coefficient, every nonzero
exponent must share the parity of the lowest one. -/
def rule5_parity_missing_ok (s : Side) (arr : List Coeff) : List Violation :=
  if arr.isEmpty then [.rule5NoCoeffs s]
  else
    match lowest_degree arr with
    | none => [.rule5Zero s]
    | some lo =>
      let hi := arr.length - 1
      let exps := nonzeroExps arr
      if exps.length ≤ 1 then []
      else if (List.range' lo (hi + 1 - lo)).any
          (fun k => coeffEqZero (arr.getD k (.num 0))) then
        if exps.all (fun e => e % 2 == exps.headD 0 % 2) then []
        else [.rule5Parity s]
      else []

/-- Model of the rule-6 check: with `deg = len - 1` on the trimmed arrays,
`abs(deg_n - deg_d)` must be 0 or 1. -/
def rule6Check (nT dT : List Coeff) : List Violation :=
  if ((((nT.length : ℤ) - 1) - ((dT.length : ℤ) - 1)).natAbs ≤ 1) then []
  else [.rule6]

/-- Model of the rule-7 check: the lowest nonzero indices of the two sides
must both exist and differ by at most 1. -/
def rule7Check (nT dT : List Coeff) : List Violation :=
  match lowest_degree nT, lowest_degree dT with
  | some ln, some ld => if (((ln : ℤ) - ld).natAbs ≤ 1) then [] else [.rule7]
  | _, _ => [.rule7]

/-- The full `failures` list accumulated by `parse_transfer_function`, in the
order the Python code appends: rule 1 on N, rule 1 on D, rule 6, rule 7,
rule 5 on N, rule 5 on D, then the root checks (rules 2, 3, 4, abstract `rc`)
on N and on D.  All rules always run; nothing short-circuits. -/
def allViolations (rc : Side → List Coeff → List Violation)
    (nums dens : List Coeff) : List Violation :=
  let nT := trim_trailing_zeros nums
  let dT := trim_trailing_zeros dens
  rule1_all_real_positive .N nT ++ rule1_all_real_positive .D dT ++
    rule6Check nT dT ++ rule7Check nT dT ++
    rule5_parity_missing_ok .N nT ++ rule5_parity_missing_ok .D dT ++
    rc .N nT ++ rc .D dT

/-- A ladder token, one tagged constructor per textual shape the code's
regular expressions distinguish (a bare value, `s`, `1/s`, `s/k`, `k/s`, an
`a*s` monomial, `a*s±b`, `b±a*s`, or an unrecognized string). -/
inductive Token where
  | const (c : Coeff)
  | sTok
  | oneOverS
  | sOverConst (c : Coeff)
  | constOverS (c : Coeff)
  | sMon (a : ℚ)
  | linear (a b : ℚ)
  | linRev (b a : ℚ) (minus : Bool)
  | other
deriving DecidableEq

/-- The success value of `parse_transfer_function`: the `{"Z": [...], "Y":
[...]}` dictionary. -/
structure LadderResult where
  Z : List Token
  Y : List Token
deriving DecidableEq

/-- The error outcomes of the external synthesis collaborator (the C++
subprocess): a nonzero exit mentioning an invalid network, another nonzero
exit, a `TimeoutExpired`, or an unavailable/uncompilable binary. -/
inductive ExtErr where
  | invalidNetwork
  | cppError
  | timeoutErr
  | notAvailable
deriving DecidableEq

/-- The reply of the external synthesis collaborator: parsed Z and Y token
arrays, or an error. -/
inductive SynthOut where
  | ok (z y : List Token)
  | err (e : ExtErr)
deriving DecidableEq

/-- The distinct error messages `parse_transfer_function` can return, one per
`return None, "..."` site. -/
inductive ErrMsg where
  | emptyArrays
  | zeroNumerator
  | zeroDenominator
  | notRealizable (vs : List Violation)
  | numDegTooHigh
  | noValidElements
  | external (e : ExtErr)
deriving DecidableEq

/-- The second and third trivial-form shortcuts (pure integrator
`Z = [scale/s]` and pure differentiator `Z = [s/scale]`), tried in order after
the constant shortcut; `scale` defaults to `0` when `safe_div` fails, and a
scale within `1e-12` of 1 prints as the bare `1/s` or `s` token. -/
def shortcut23 (a0 a1 b0 b1 : Coeff) : Option LadderResult :=
  if coeffEqZero a1 && coeffEqZero b0 && coeffAbsPos b1 then
    let scale := (safe_div a0 b1).getD (.num 0)
    some ⟨[if near1Strict scale then .oneOverS else .constOverS scale], []⟩
  else if coeffEqZero b1 && coeffEqZero a0 && coeffAbsPos b0 &&
      coeffAbsPos a1 then
    let scale := (safe_div b0 a1).getD (.num 0)
    some ⟨[if near1Strict scale then .sTok else .sOverConst scale], []⟩
  else none

/-- The trivial-form shortcuts of `parse_transfer_function` (lines 204-235),
on the trimmed arrays: guarded by a nonzero denominator and both degrees at
most 1; the constant shortcut falls through to the next branches when
`safe_div` returns `None`. -/
def shortcuts (nT dT : List Coeff) : Option LadderResult :=
  if dT.all coeffEqZero then none
  else
    let a0 := nT.getD 0 (.num 0)
    let a1 := nT.getD 1 (.num 0)
    let b0 := dT.getD 0 (.num 0)
    let b1 := dT.getD 1 (.num 0)
    if nT.length ≤ 2 && dT.length ≤ 2 then
      if coeffEqZero a1 && coeffEqZero b1 && coeffAbsPos b0 then
        match safe_div a0 b0 with
        | some k => some ⟨[.const k], []⟩
        | none => shortcut23 a0 a1 b0 b1
      else shortcut23 a0 a1 b0 b1
    else none

/-- The subprocess leg of `parse_transfer_function` (lines 237-315): consult
the external collaborator; on an empty reply fall back to the constant ratio
when both trimmed degrees are 0, otherwise report that no elements were
generated. -/
def afterSynth (synth : List Coeff → List Coeff → SynthOut)
    (nT dT : List Coeff) : Option LadderResult × Option ErrMsg :=
  match synth nT dT with
  | .err e => (none, some (.external e))
  | .ok z y =>
    if z.isEmpty && y.isEmpty then
      if nT.length == 1 && dT.length == 1 && coeffAbsPos (dT.getD 0 (.num 0))
      then
        match safe_div (nT.getD 0 (.num 0)) (dT.getD 0 (.num 0)) with
        | some k => (some ⟨[.const k], []⟩, none)
        | none => (none, some .noValidElements)
      else (none, some .noValidElements)
    else (some ⟨z, y⟩, none)

/-- Model of `parse_transfer_function` (src/web/app.py lines 51-320).  The
floating-point root checks (rules 2, 3, 4) are the parameter `rc`; the
external C++ synthesis subprocess is the parameter `synth`.  Every Python
return path, including the exception handlers at lines 317-320, yields a
`(result, error)` pair. -/
def parse_transfer_function (rc : Side → List Coeff → List Violation)
    (synth : List Coeff → List Coeff → SynthOut)
    (nums dens : List Coeff) : Option LadderResult × Option ErrMsg :=
  if nums.isEmpty || dens.isEmpty then (none, some .emptyArrays)
  else if nums.all coeffEqZero then (none, some .zeroNumerator)
  else if dens.all coeffEqZero then (none, some .zeroDenominator)
  else
    let nT := trim_trailing_zeros nums
    let dT := trim_trailing_zeros dens
    let failures := allViolations rc nums dens
    if failures.isEmpty then
      if dT.length + 1 < nT.length then (none, some .numDegTooHigh)
      else
        match shortcuts nT dT with
        | some res => (some res, none)
        | none => afterSynth synth nT dT
    else (none, some (.notRealizable failures))

/-- The shape of the `(result, error)` pair returned by
`parse_transfer_function`: exactly one of the two components is populated. -/
def exactlyOneSome (pe : Option LadderResult × Option ErrMsg) : Prop :=
  (pe.1 = none ∧ pe.2 ≠ none) ∨ (pe.1 ≠ none ∧ pe.2 = none)

/-- The replacement token the normalizer writes for a pure inductance: the
bare `s` when `abs(a - 1.0) <= 1e-12`, else the `a*s` monomial. -/
def sMonToken (a : ℚ) : Token :=
  if tol12 < |a - 1| then .sMon a else .sTok

/-- Model of `normalize_tokens` (src/web/app.py lines 600-620): only the LAST
Z token is inspected; if it has the shape `a*s + b` with `b <= 0` the constant
is dropped (the token becomes a pure inductance), and for the reversed shape
`b ± a*s` the same happens whenever the separator is a minus sign.  All other
tokens, and the whole Y list, pass through unchanged; the function cannot
fail. -/
def normalize_tokens (zl yl : List Token) : List Token × List Token :=
  match zl.getLast? with
  | some (.linear a b) =>
    if b ≤ 0 then (zl.dropLast ++ [sMonToken a], yl) else (zl, yl)
  | some (.linRev _ a minus) =>
    if minus then (zl.dropLast ++ [sMonToken a], yl) else (zl, yl)
  | _ => (zl, yl)

/-! Exact-rational polynomials for the continued-fraction synthesizer.  The
expansion itself lives in the external C++ program (`ContinuedFraction.cpp`),
which is not among the Python sources; it is modelled from the specification
(section 4.3) below.  A polynomial is its ascending coefficient list. -/

/-- Coefficient of `s^i`, zero beyond the stored length. -/
def coeffQ (p : List ℚ) (i : Nat) : ℚ := p.getD i 0

/-- Index of the highest nonzero coefficient, `none` for the zero
polynomial. -/
def degOpt : List ℚ → Option Nat
  | [] => none
  | c :: cs =>
    match degOpt cs with
    | some d => some (d + 1)
    | none => if c = 0 then none else some 0

/-- Degree as a natural number, with the zero polynomial mapped to 0. -/
def degN (p : List ℚ) : Nat := (degOpt p).getD 0

/-- Whether every stored coefficient is zero. -/
def polyIsZero (p : List ℚ) : Bool := p.all (fun c => c == 0)

/-- Leading coefficient (the coefficient at index `degN`). -/
def leadQ (p : List ℚ) : ℚ := coeffQ p (degN p)

/-- Scalar multiple of a polynomial. -/
def polyScaleQ (c : ℚ) (p : List ℚ) : List ℚ := p.map (fun x => c * x)

/-- Multiplication by `s^k` (prepend `k` zero coefficients). -/
def shiftQ (k : Nat) (p : List ℚ) : List ℚ := List.replicate k 0 ++ p

/-- Pointwise difference of coefficient lists. -/
def polySubQ : List ℚ → List ℚ → List ℚ
  | [], q => q.map (fun y => -y)
  | p, [] => p
  | x :: xs, y :: ys => (x - y) :: polySubQ xs ys

/-- Pointwise sum of coefficient lists. -/
def polyAddQ : List ℚ → List ℚ → List ℚ
  | [], q => q
  | p, [] => p
  | x :: xs, y :: ys => (x + y) :: polyAddQ xs ys

/-- The monomial `c * s^k`. -/
def monomialQ (k : Nat) (c : ℚ) : List ℚ := List.replicate k 0 ++ [c]

/-- Modelled from the spec: the fuelled long-division loop of the Polynomial
component's divide-with-remainder (section 4.1), whose implementation lives in
the external C++ sources.  Each step cancels the dividend's leading term
against `(leadA/leadB) * s^(degA-degB) * B`; the loop stops when the running
dividend is zero or of degree lower than the divisor's. -/
def divideWithRemainderAux : Nat → List ℚ → List ℚ → List ℚ × List ℚ
  | 0, A, _ => ([], A)
  | fuel + 1, A, B =>
    if polyIsZero A then ([], A)
    else if degN A < degN B then ([], A)
    else
      let k := degN A - degN B
      let c := leadQ A / leadQ B
      let A2 := polySubQ A (shiftQ k (polyScaleQ c B))
      let qr := divideWithRemainderAux fuel A2 B
      (polyAddQ qr.1 (monomialQ k c), qr.2)

/-- Modelled from the spec: divide-with-remainder (section 4.1), run with
enough fuel for every degree of the dividend. -/
def divideWithRemainder (A B : List ℚ) : List ℚ × List ℚ :=
  divideWithRemainderAux (degN A + 1) A B

/-- Modelled from the spec: the Cauer-I continued-fraction expansion loop of
ContinuedFractionSynthesizer (section 4.3), whose implementation lives in the
external C++ sources.  Each stage swaps the pair so the higher-degree
polynomial is the dividend, divides, records the quotient as the stage term
tagged with the current rail (`true` = series impedance Z), stops on a zero
remainder, and otherwise continues with `(A, B) := (B, R)` and the rail
flipped. -/
def cfExpandAux : Nat → List ℚ → List ℚ → Bool → Option (List (Bool × List ℚ))
  | 0, _, _, _ => none
  | fuel + 1, A, B, rail =>
    if polyIsZero B then none
    else
      let p := if degN A < degN B then (B, A) else (A, B)
      let qr := divideWithRemainder p.1 p.2
      if polyIsZero qr.2 then some [(rail, qr.1)]
      else
        match cfExpandAux fuel p.2 qr.2 (!rail) with
        | some rest => some ((rail, qr.1) :: rest)
        | none => none

/-- Whether a tagged stage list strictly alternates rails starting from the
given one. -/
def altB : Bool → List (Bool × List ℚ) → Bool
  | _, [] => true
  | r, (t, _) :: rest => (t == r) && altB (!r) rest

/-- The Z-terms (stages tagged `true`), in stage order. -/
def zTerms (st : List (Bool × List ℚ)) : List (List ℚ) :=
  st.filterMap (fun p => if p.1 then some p.2 else none)

/-- The Y-terms (stages tagged `false`), in stage order. -/
def yTerms (st : List (Bool × List ℚ)) : List (List ℚ) :=
  st.filterMap (fun p => if p.1 then none else some p.2)

/-- Modelled from the spec: ContinuedFractionSynthesizer (section 4.3) run on
a transfer function with the stage budget `deg N + deg D + 1`, splitting the
stages into the ordered Z and Y sequences. -/
def cfSynthesize (N D : List ℚ) :
    Option (List (List ℚ) × List (List ℚ)) :=
  match cfExpandAux (degN N + degN D + 1) N D true with
  | some st => some (zTerms st, yTerms st)
  | none => none


/-! Helper lemmas shared by the claim theorems. -/

/-- When an input reaches the rule battery and some rule fails, the function
returns the itemized report and nothing else. -/
theorem parse_tf_invalid (rc : Side → List Coeff → List Violation)
    (synth : List Coeff → List Coeff → SynthOut) (nums dens : List Coeff)
    (hne : (nums.isEmpty || dens.isEmpty) = false)
    (hnz : nums.all coeffEqZero = false)
    (hdz : dens.all coeffEqZero = false)
    (hv : allViolations rc nums dens ≠ []) :
    parse_transfer_function rc synth nums dens =
      (none, some (.notRealizable (allViolations rc nums dens))) := by
  unfold parse_transfer_function
  simp [hne, hnz, hdz, hv]

/-- When validation passes and a trivial-form shortcut fires, its token list
is the result and the external synthesizer is never consulted. -/
theorem parse_tf_shortcut (rc : Side → List Coeff → List Violation)
    (synth : List Coeff → List Coeff → SynthOut) (nums dens : List Coeff)
    (res : LadderResult)
    (hne : (nums.isEmpty || dens.isEmpty) = false)
    (hnz : nums.all coeffEqZero = false)
    (hdz : dens.all coeffEqZero = false)
    (hv : allViolations rc nums dens = [])
    (hdeg : ¬ (trim_trailing_zeros dens).length + 1 <
        (trim_trailing_zeros nums).length)
    (hs : shortcuts (trim_trailing_zeros nums) (trim_trailing_zeros dens) =
        some res) :
    parse_transfer_function rc synth nums dens = (some res, none) := by
  unfold parse_transfer_function
  simp [hne, hnz, hdz, hv, hdeg, hs]

/-- An index with positive absolute value is one of the collected nonzero
exponents. -/
theorem mem_nonzeroExps (arr : List Coeff) (i : Nat) (hi : i < arr.length)
    (hp : coeffAbsPos (arr.getD i (.num 0)) = true) : i ∈ nonzeroExps arr := by
  unfold nonzeroExps
  exact List.mem_filter.mpr ⟨List.mem_range.mpr hi, hp⟩

/-- In-range `getD` is the stored element. -/
theorem getD_eq_getElem_of_lt (l : List Coeff) (d : Coeff) (i : Nat)
    (h : i < l.length) : l.getD i d = l[i] := by
  rw [List.getD_eq_getElem?_getD, List.getElem?_eq_getElem h]
  rfl


/-! Claim theorems for the validation pipeline. -/

/-- Claim C2: whenever the trimmed degrees of the two sides differ by more
than 1, the rule battery reports a rule-6 (degree adjacency) violation, the
function returns the itemized failure report, and the external synthesizer is
never invoked — the result is identical for any two synthesis collaborators. -/
theorem c2_degree_gap (rc : Side → List Coeff → List Violation)
    (synth synth' : List Coeff → List Coeff → SynthOut)
    (nums dens : List Coeff)
    (hn : nums.isEmpty = false) (hd : dens.isEmpty = false)
    (hnz : nums.all coeffEqZero = false)
    (hdz : dens.all coeffEqZero = false)
    (hgap : 1 < ((((trim_trailing_zeros nums).length : ℤ) - 1) -
        (((trim_trailing_zeros dens).length : ℤ) - 1)).natAbs) :
    Violation.rule6 ∈ allViolations rc nums dens ∧
    parse_transfer_function rc synth nums dens =
      (none, some (.notRealizable (allViolations rc nums dens))) ∧
    parse_transfer_function rc synth nums dens =
      parse_transfer_function rc synth' nums dens := by
  have h6 : rule6Check (trim_trailing_zeros nums) (trim_trailing_zeros dens) =
      [.rule6] := by
    unfold rule6Check
    rw [if_neg]
    omega
  have hmem : Violation.rule6 ∈ allViolations rc nums dens := by
    simp [allViolations, h6, List.mem_append]
  have hne : allViolations rc nums dens ≠ [] := by
    intro h
    rw [h] at hmem
    exact absurd hmem (List.not_mem_nil _)
  have hmain : ∀ sy, parse_transfer_function rc sy nums dens =
      (none, some (.notRealizable (allViolations rc nums dens))) := fun sy =>
    parse_tf_invalid rc sy nums dens (by rw [hn, hd]; rfl) hnz hdz hne
  exact ⟨hmem, hmain synth, (hmain synth).trans (hmain synth').symm⟩

/-- Witness for C2 at N = [1], D = [0, 0, 1] (degree gap 2). -/
theorem c2_degree_gap_witness :
    Violation.rule6 ∈ allViolations (fun _ _ => [])
      [Coeff.num 1] [Coeff.num 0, Coeff.num 0, Coeff.num 1] ∧
    parse_transfer_function (fun _ _ => []) (fun _ _ => .err .cppError)
        [Coeff.num 1] [Coeff.num 0, Coeff.num 0, Coeff.num 1] =
      (none, some (.notRealizable (allViolations (fun _ _ => [])
        [Coeff.num 1] [Coeff.num 0, Coeff.num 0, Coeff.num 1]))) ∧
    parse_transfer_function (fun _ _ => []) (fun _ _ => .err .cppError)
        [Coeff.num 1] [Coeff.num 0, Coeff.num 0, Coeff.num 1] =
      parse_transfer_function (fun _ _ => []) (fun _ _ => .ok [] [])
        [Coeff.num 1] [Coeff.num 0, Coeff.num 0, Coeff.num 1] :=
  c2_degree_gap (fun _ _ => []) (fun _ _ => .err .cppError)
    (fun _ _ => .ok [] []) [Coeff.num 1]
    [Coeff.num 0, Coeff.num 0, Coeff.num 1]
    rfl rfl (by decide) (by decide) (by decide)

/-- Claim C3: validation does not short-circuit — the failure report is the
concatenation of every rule's output, so any record produced by any rule
(including a rule-1 and rule-6 pair) is present in the returned report. -/
theorem c3_no_short_circuit (rc : Side → List Coeff → List Violation)
    (synth : List Coeff → List Coeff → SynthOut)
    (nums dens : List Coeff) (v : Violation)
    (hn : nums.isEmpty = false) (hd : dens.isEmpty = false)
    (hnz : nums.all coeffEqZero = false)
    (hdz : dens.all coeffEqZero = false)
    (hfail : allViolations rc nums dens ≠ [])
    (hv : v ∈ rule1_all_real_positive .N (trim_trailing_zeros nums) ∨
      v ∈ rule1_all_real_positive .D (trim_trailing_zeros dens) ∨
      v ∈ rule6Check (trim_trailing_zeros nums) (trim_trailing_zeros dens) ∨
      v ∈ rule7Check (trim_trailing_zeros nums) (trim_trailing_zeros dens) ∨
      v ∈ rule5_parity_missing_ok .N (trim_trailing_zeros nums) ∨
      v ∈ rule5_parity_missing_ok .D (trim_trailing_zeros dens) ∨
      v ∈ rc .N (trim_trailing_zeros nums) ∨
      v ∈ rc .D (trim_trailing_zeros dens)) :
    parse_transfer_function rc synth nums dens =
      (none, some (.notRealizable (allViolations rc nums dens))) ∧
    v ∈ allViolations rc nums dens := by
  refine ⟨parse_tf_invalid rc synth nums dens (by rw [hn, hd]; rfl) hnz hdz
    hfail, ?_⟩
  unfold allViolations
  simp only [List.mem_append]
  tauto

/-- Witness for C3 at N = [-1], D = [0, 0, 1]: the report carries both the
rule-1 record (negative coefficient) and the rule-6 record (degree gap). -/
theorem c3_no_short_circuit_witness :
    Violation.rule1 .N ∈ allViolations (fun _ _ => [])
      [Coeff.num (-1)] [Coeff.num 0, Coeff.num 0, Coeff.num 1] ∧
    Violation.rule6 ∈ allViolations (fun _ _ => [])
      [Coeff.num (-1)] [Coeff.num 0, Coeff.num 0, Coeff.num 1] :=
  ⟨(c3_no_short_circuit (fun _ _ => []) (fun _ _ => .err .cppError)
      [Coeff.num (-1)] [Coeff.num 0, Coeff.num 0, Coeff.num 1]
      (Violation.rule1 .N) rfl rfl (by decide) (by decide) (by decide)
      (by decide)).2,
   (c3_no_short_circuit (fun _ _ => []) (fun _ _ => .err .cppError)
      [Coeff.num (-1)] [Coeff.num 0, Coeff.num 0, Coeff.num 1]
      Violation.rule6 rfl rfl (by decide) (by decide) (by decide)
      (by decide)).2⟩

/-- Claim C4: the three boundary inputs each yield a single Z-term of the
stated kind and an empty Y-sequence — N = [1], D = [1] the unit resistive
constant token, N = [0, 1], D = [1] the bare `s` (1 H inductor) token, and
N = [1], D = [0, 1] the `1/s` (1 F capacitor) token — provided the numeric
root checks pass on these inputs, as they do for numpy on constants and on
`s`. -/
theorem c4_boundary (rc : Side → List Coeff → List Violation)
    (synth : List Coeff → List Coeff → SynthOut)
    (h1 : rc .N [Coeff.num 1] = []) (h2 : rc .D [Coeff.num 1] = [])
    (h3 : rc .N [Coeff.num 0, Coeff.num 1] = [])
    (h4 : rc .D [Coeff.num 0, Coeff.num 1] = []) :
    parse_transfer_function rc synth [Coeff.num 1] [Coeff.num 1] =
      (some ⟨[Token.const (Coeff.num 1)], []⟩, none) ∧
    parse_transfer_function rc synth [Coeff.num 0, Coeff.num 1] [Coeff.num 1] =
      (some ⟨[Token.sTok], []⟩, none) ∧
    parse_transfer_function rc synth [Coeff.num 1] [Coeff.num 0, Coeff.num 1] =
      (some ⟨[Token.oneOverS], []⟩, none) := by
  have e1 : trim_trailing_zeros [Coeff.num 1] = [Coeff.num 1] := by decide
  have e2 : trim_trailing_zeros [Coeff.num 0, Coeff.num 1] =
      [Coeff.num 0, Coeff.num 1] := by decide
  refine ⟨?_, ?_, ?_⟩
  · refine parse_tf_shortcut _ _ _ _ _ (by decide) (by decide) (by decide) ?_
      (by rw [e1]; decide) ?_
    · simp only [allViolations, e1, h1, h2]
      decide
    · rw [e1]
      simp [shortcuts, shortcut23, safe_div, coeffEqZero, coeffAbsPos]
  · refine parse_tf_shortcut _ _ _ _ _ (by decide) (by decide) (by decide) ?_
      (by rw [e1, e2]; decide) ?_
    · simp only [allViolations, e1, e2, h3, h2]
      decide
    · rw [e1, e2]
      simp [shortcuts, shortcut23, safe_div, coeffEqZero, coeffAbsPos,
        near1Strict, tol12]
  · refine parse_tf_shortcut _ _ _ _ _ (by decide) (by decide) (by decide) ?_
      (by rw [e1, e2]; decide) ?_
    · simp only [allViolations, e1, e2, h1, h4]
      decide
    · rw [e1, e2]
      simp [shortcuts, shortcut23, safe_div, coeffEqZero, coeffAbsPos,
        near1Strict, tol12]

/-- Witness for C4 with trivial collaborators. -/
theorem c4_boundary_witness :
    parse_transfer_function (fun _ _ => []) (fun _ _ => .err .cppError)
        [Coeff.num 1] [Coeff.num 1] =
      (some ⟨[Token.const (Coeff.num 1)], []⟩, none) ∧
    parse_transfer_function (fun _ _ => []) (fun _ _ => .err .cppError)
        [Coeff.num 0, Coeff.num 1] [Coeff.num 1] =
      (some ⟨[Token.sTok], []⟩, none) ∧
    parse_transfer_function (fun _ _ => []) (fun _ _ => .err .cppError)
        [Coeff.num 1] [Coeff.num 0, Coeff.num 1] =
      (some ⟨[Token.oneOverS], []⟩, none) :=
  c4_boundary (fun _ _ => []) (fun _ _ => .err .cppError) rfl rfl rfl rfl

/-- Counterexample for claim C5: with a positive-infinite numerator
coefficient the call does NOT fail with a coefficient error — the coefficient
battery passes `inf` (since `float('inf') < 0` is false), and the constant
shortcut happily returns an infinite resistive token.  The root checks are
instantiated to the empty report, matching numpy's behavior on the degree-0
array `[inf]` (no roots to examine). -/
theorem c5_counterexample :
    parse_transfer_function (fun _ _ => []) (fun _ _ => .err .cppError)
        [Coeff.inf] [Coeff.num 1] =
      (some ⟨[Token.const Coeff.inf], []⟩, none) := by
  decide

/-- Claim C5 as amended: an empty coefficient array fails with the
empty-arrays error, and a complex or negative (including negative-infinite)
coefficient yields a rule-1 violation; but a positive-infinite or NaN
coefficient passes the coefficient check and is not rejected. -/
theorem c5_amended (rc : Side → List Coeff → List Violation)
    (synth : List Coeff → List Coeff → SynthOut)
    (nums dens arr : List Coeff) (s : Side) (c : Coeff)
    (hempty : nums = [] ∨ dens = [])
    (hc : c ∈ arr) (hbad : rule1Bad c = true) :
    parse_transfer_function rc synth nums dens = (none, some .emptyArrays) ∧
    rule1_all_real_positive s arr = [.rule1 s] ∧
    rule1_all_real_positive s [Coeff.inf] = [] ∧
    rule1_all_real_positive s [Coeff.nan] = [] := by
  refine ⟨?_, ?_, by rfl, by rfl⟩
  · rcases hempty with h | h <;> subst h <;> simp [parse_transfer_function]
  · have hany : arr.any rule1Bad = true := List.any_eq_true.mpr ⟨c, hc, hbad⟩
    simp [rule1_all_real_positive, hany]

/-- Witness for the amended C5 at an empty numerator and a complex
coefficient. -/
theorem c5_amended_witness :
    parse_transfer_function (fun _ _ => []) (fun _ _ => .err .cppError)
        [] [Coeff.num 1] = (none, some ErrMsg.emptyArrays) ∧
    rule1_all_real_positive Side.N [Coeff.cpx 0 1] = [Violation.rule1 Side.N] ∧
    rule1_all_real_positive Side.N [Coeff.inf] = [] ∧
    rule1_all_real_positive Side.N [Coeff.nan] = [] :=
  c5_amended (fun _ _ => []) (fun _ _ => .err .cppError) [] [Coeff.num 1]
    [Coeff.cpx 0 1] Side.N (Coeff.cpx 0 1) (Or.inl rfl) (by decide) (by decide)

/-- Counterexample for claim C6: the normalizer silently drops the constant
`-5` from the final Z-token `s - 5` — a change far beyond any round-off
tolerance — and returns successfully instead of failing with a non-physical
value error. -/
theorem c6_counterexample :
    normalize_tokens [Token.linear 1 (-5)] [] = ([Token.sTok], []) ∧
    ([Token.sTok], ([] : List Token)) ≠ ([Token.linear 1 (-5)], []) := by
  constructor
  · simp [normalize_tokens, sMonToken, tol12]
  · decide

/-- Claim C6 as amended: normalization of a final Z-token of shape
`a*s + b` with `b ≤ 0` drops the constant entirely, regardless of its
magnitude; the function is total and never fails. -/
theorem c6_amended (zs yl : List Token) (a b : ℚ) (hb : b ≤ 0) :
    normalize_tokens (zs ++ [Token.linear a b]) yl =
      (zs ++ [sMonToken a], yl) := by
  unfold normalize_tokens
  rw [List.getLast?_concat, List.dropLast_concat]
  simp [hb]

/-- Witness for the amended C6 at the token `2s - 7`. -/
theorem c6_amended_witness :
    normalize_tokens [Token.linear 2 (-7)] [] = ([Token.sMon 2], []) := by
  have h := c6_amended [] [] 2 (-7) (by decide)
  rw [show sMonToken 2 = Token.sMon 2 by norm_num [sMonToken, tol12]] at h
  simpa using h

/-- Claim C7: for a polynomial with an interior zero coefficient flanked by
nonzero coefficients on both sides, rule 5 passes exactly when the set of
nonzero exponents is all-even or all-odd, and a mixed-parity gap yields the
single rule-5 parity violation record. -/
theorem c7_rule5_parity (s : Side) (arr : List Coeff) (i k j : Nat)
    (hik : i < k) (hkj : k < j) (hj : j < arr.length)
    (hi : coeffAbsPos (arr.getD i (.num 0)) = true)
    (hk : coeffEqZero (arr.getD k (.num 0)) = true)
    (hjnz : coeffAbsPos (arr.getD j (.num 0)) = true) :
    (rule5_parity_missing_ok s arr = [] ↔
      (∀ e ∈ nonzeroExps arr, e % 2 = 0) ∨
      (∀ e ∈ nonzeroExps arr, e % 2 = 1)) ∧
    (rule5_parity_missing_ok s arr = [] ∨
     rule5_parity_missing_ok s arr = [.rule5Parity s]) := by
  have hiL : i < arr.length := by omega
  have hkL : k < arr.length := by omega
  have hne : arr.isEmpty = false := by
    rcases arr with _ | _
    · simp at hj
    · simp
  have hi' : coeffAbsPos (arr[i]) = true := by
    rw [← getD_eq_getElem_of_lt arr (.num 0) i hiL]
    exact hi
  have hsome : (arr.findIdx? coeffAbsPos).isSome = true := by
    rw [List.findIdx?_isSome]
    exact List.any_eq_true.mpr ⟨arr[i], List.getElem_mem hiL, hi'⟩
  obtain ⟨lo, hlo⟩ := Option.isSome_iff_exists.mp hsome
  obtain ⟨hloL, hlop, hlomin⟩ := List.findIdx?_eq_some_iff_getElem.mp hlo
  have hloi : lo ≤ i := by
    by_contra hcon
    exact (hlomin i (by omega)) hi'
  have iE : i ∈ nonzeroExps arr := mem_nonzeroExps arr i hiL hi
  have jE : j ∈ nonzeroExps arr := mem_nonzeroExps arr j hj hjnz
  have hlen2 : ¬ (nonzeroExps arr).length ≤ 1 := by
    intro hle
    rcases hexps : nonzeroExps arr with _ | ⟨a, t⟩
    · rw [hexps] at iE
      exact absurd iE (List.not_mem_nil _)
    · rw [hexps] at iE jE hle
      simp only [List.length_cons] at hle
      have ht : t = [] := List.length_eq_zero.mp (by omega)
      subst ht
      simp only [List.mem_singleton] at iE jE
      omega
  have hmiss : (List.range' lo (arr.length - 1 + 1 - lo)).any
      (fun m => coeffEqZero (arr.getD m (.num 0))) = true := by
    refine List.any_eq_true.mpr ⟨k, ?_, hk⟩
    rw [List.mem_range'_1]
    omega
  have hrule : rule5_parity_missing_ok s arr =
      (if (nonzeroExps arr).all
          (fun e => e % 2 == (nonzeroExps arr).headD 0 % 2) then []
       else [.rule5Parity s]) := by
    unfold rule5_parity_missing_ok lowest_degree
    rw [hne, hlo]
    simp only [Bool.false_eq_true, if_false]
    rw [if_neg hlen2, if_pos hmiss]
  have hheadmem : (nonzeroExps arr).headD 0 ∈ nonzeroExps arr := by
    rcases hexps : nonzeroExps arr with _ | ⟨a, t⟩
    · rw [hexps] at iE
      exact absurd iE (List.not_mem_nil _)
    · simp
  constructor
  · rw [hrule]
    rcases hpar : (nonzeroExps arr).all
        (fun e => e % 2 == (nonzeroExps arr).headD 0 % 2) with _ | _
    · rw [if_neg (by simp)]
      constructor
      · intro hcon
        exact absurd hcon (by simp)
      · intro hcon
        exfalso
        have hallpar : (nonzeroExps arr).all
            (fun e => e % 2 == (nonzeroExps arr).headD 0 % 2) = true := by
          rw [List.all_eq_true]
          rcases hcon with hcon | hcon
          · intro e he
            rw [beq_iff_eq, hcon e he, hcon _ hheadmem]
          · intro e he
            rw [beq_iff_eq, hcon e he, hcon _ hheadmem]
        rw [hpar] at hallpar
        exact absurd hallpar (by simp)
    · rw [if_pos rfl]
      constructor
      · intro _
        have hall := List.all_eq_true.mp hpar
        rcases Nat.mod_two_eq_zero_or_one ((nonzeroExps arr).headD 0) with
          h0 | h1
        · left
          intro e he
          have := hall e he
          rw [beq_iff_eq] at this
          omega
        · right
          intro e he
          have := hall e he
          rw [beq_iff_eq] at this
          omega
      · intro _
        rfl
  · rw [hrule]
    rcases hpar : (nonzeroExps arr).all
        (fun e => e % 2 == (nonzeroExps arr).headD 0 % 2) with _ | _
    · right
      rw [if_neg (by simp)]
    · left
      rw [if_pos rfl]

/-- Witness for C7 at the all-even gapped polynomial `1 + s^2`. -/
theorem c7_rule5_parity_witness :
    (rule5_parity_missing_ok Side.N [Coeff.num 1, Coeff.num 0, Coeff.num 1] =
        [] ↔
      (∀ e ∈ nonzeroExps [Coeff.num 1, Coeff.num 0, Coeff.num 1],
        e % 2 = 0) ∨
      (∀ e ∈ nonzeroExps [Coeff.num 1, Coeff.num 0, Coeff.num 1],
        e % 2 = 1)) ∧
    (rule5_parity_missing_ok Side.N [Coeff.num 1, Coeff.num 0, Coeff.num 1] =
        [] ∨
     rule5_parity_missing_ok Side.N [Coeff.num 1, Coeff.num 0, Coeff.num 1] =
        [.rule5Parity Side.N]) :=
  c7_rule5_parity Side.N [Coeff.num 1, Coeff.num 0, Coeff.num 1] 0 1 2
    (by decide) (by decide) (by decide) (by decide) (by decide) (by decide)

/-- Claim C8: for every non-empty coefficient list, the trimmed form is
non-empty, is a prefix of the input whose dropped suffix consists only of
zero coefficients, and its last element can only be a zero when the whole
input is the zero polynomial — which trims to the single leading
coefficient. -/
theorem c8_trimmed_form (arr : List Coeff) (h : arr ≠ []) :
    trim_trailing_zeros arr ≠ [] ∧
    (∃ kk, kk < arr.length ∧ trim_trailing_zeros arr = arr.take (kk + 1) ∧
      ∀ c ∈ arr.drop (kk + 1), coeffEqZero c = true) ∧
    (∀ c, (trim_trailing_zeros arr).getLast? = some c →
      coeffEqZero c = true →
      trim_trailing_zeros arr = arr.take 1 ∧ arr.all coeffEqZero = true) := by
  have hsplit := List.takeWhile_append_dropWhile coeffEqZero arr.reverse
  rcases hrd : arr.reverse.dropWhile coeffEqZero with _ | ⟨x, xs⟩
  · rw [hrd, List.append_nil] at hsplit
    have hall : arr.all coeffEqZero = true := by
      rw [List.all_eq_true]
      intro a ha
      have : a ∈ arr.reverse.takeWhile coeffEqZero := by
        rw [hsplit]
        exact List.mem_reverse.mpr ha
      exact List.mem_takeWhile_imp this
    have htrim : trim_trailing_zeros arr = arr.take 1 := by
      unfold trim_trailing_zeros
      rw [hrd]
    have hlen : 0 < arr.length := List.length_pos.mpr h
    refine ⟨?_, ⟨0, hlen, htrim, ?_⟩, fun c _ _ => ⟨htrim, hall⟩⟩
    · rw [htrim]
      rcases arr with _ | ⟨a, t⟩
      · exact absurd rfl h
      · simp
    · intro c hc
      exact List.all_eq_true.mp hall _ (List.drop_subset _ _ hc)
  · have hx : coeffEqZero x = false := by
      have hh := List.head?_dropWhile_not coeffEqZero arr.reverse
      rw [hrd] at hh
      simpa using hh
    have htrim : trim_trailing_zeros arr = (x :: xs).reverse := by
      unfold trim_trailing_zeros
      rw [hrd]
    have h1 : arr.reverse = arr.reverse.takeWhile coeffEqZero ++ (x :: xs) := by
      rw [← hrd]
      exact hsplit.symm
    have harr : arr =
        (x :: xs).reverse ++ (arr.reverse.takeWhile coeffEqZero).reverse := by
      have h2 := congrArg List.reverse h1
      simpa [List.reverse_append] using h2
    have hlen : (x :: xs).length +
        (arr.reverse.takeWhile coeffEqZero).length = arr.length := by
      have h3 := congrArg List.length h1
      simp only [List.length_reverse, List.length_append] at h3
      omega
    have hxl : xs.length + 1 = (x :: xs).reverse.length := by simp
    refine ⟨?_, ⟨xs.length, ?_, ?_, ?_⟩, ?_⟩
    · rw [htrim]
      simp
    · simp only [List.length_cons] at hlen
      omega
    · rw [htrim]
      conv_rhs => rw [harr]
      rw [hxl, List.take_left]
    · intro c hcmem
      have hdrop : arr.drop (xs.length + 1) =
          (arr.reverse.takeWhile coeffEqZero).reverse := by
        conv_lhs => rw [harr]
        rw [hxl, List.drop_left]
      rw [hdrop] at hcmem
      exact List.mem_takeWhile_imp (List.mem_reverse.mp hcmem)
    · intro c hc hcz
      rw [htrim, List.getLast?_reverse] at hc
      simp only [List.head?_cons, Option.some.injEq] at hc
      rw [← hc] at hcz
      rw [hcz] at hx
      exact absurd hx (by simp)

/-- Witness for C8 at the list [1, 0]. -/
theorem c8_trimmed_form_witness :
    trim_trailing_zeros [Coeff.num 1, Coeff.num 0] ≠ [] ∧
    (∃ kk, kk < 2 ∧ trim_trailing_zeros [Coeff.num 1, Coeff.num 0] =
        [Coeff.num 1, Coeff.num 0].take (kk + 1) ∧
      ∀ c ∈ [Coeff.num 1, Coeff.num 0].drop (kk + 1),
        coeffEqZero c = true) ∧
    (∀ c, (trim_trailing_zeros [Coeff.num 1, Coeff.num 0]).getLast? = some c →
      coeffEqZero c = true →
      trim_trailing_zeros [Coeff.num 1, Coeff.num 0] =
        [Coeff.num 1, Coeff.num 0].take 1 ∧
      [Coeff.num 1, Coeff.num 0].all coeffEqZero = true) :=
  c8_trimmed_form [Coeff.num 1, Coeff.num 0] (by decide)

/-- Claim C9: the pipeline is deterministic — with the numeric root-check
collaborator `rc` and the external synthesis collaborator `synth` held fixed,
two invocations of the validate-then-synthesize function on identical inputs
yield identical results, including identical failure reports. -/
theorem c9_deterministic (rc : Side → List Coeff → List Violation)
    (synth : List Coeff → List Coeff → SynthOut)
    (n1 d1 n2 d2 : List Coeff) (hn : n1 = n2) (hd : d1 = d2) :
    parse_transfer_function rc synth n1 d1 =
      parse_transfer_function rc synth n2 d2 := by
  rw [hn, hd]

/-- Witness for C9 on the RC-network input. -/
theorem c9_deterministic_witness :
    parse_transfer_function (fun _ _ => []) (fun _ _ => .err .cppError)
        [Coeff.num 1, Coeff.num 1] [Coeff.num 0, Coeff.num 1] =
      parse_transfer_function (fun _ _ => []) (fun _ _ => .err .cppError)
        [Coeff.num 1, Coeff.num 1] [Coeff.num 0, Coeff.num 1] :=
  c9_deterministic _ _ _ _ _ _ rfl rfl

/-- Claim C10: for every pair of list inputs the processing function is total
and returns exactly one of a success result or an error value — never both,
never neither; every internal failure surfaces as an error value, not an
exception. -/
theorem c10_total_exclusive (rc : Side → List Coeff → List Violation)
    (synth : List Coeff → List Coeff → SynthOut) (nums dens : List Coeff) :
    exactlyOneSome (parse_transfer_function rc synth nums dens) := by
  unfold parse_transfer_function afterSynth
  simp only [exactlyOneSome]
  repeat' split
  all_goals simp


/-! Lemmas for the spec-modelled continued-fraction synthesizer (claim C1). -/

theorem coeffQ_nil (i : Nat) : coeffQ [] i = 0 := by
  simp [coeffQ]

theorem coeffQ_cons_zero (c : ℚ) (cs : List ℚ) : coeffQ (c :: cs) 0 = c := rfl

theorem coeffQ_cons_succ (c : ℚ) (cs : List ℚ) (i : Nat) :
    coeffQ (c :: cs) (i + 1) = coeffQ cs i := rfl

theorem degOpt_cons (c : ℚ) (cs : List ℚ) :
    degOpt (c :: cs) = match degOpt cs with
      | some d => some (d + 1)
      | none => if c = 0 then none else some 0 := rfl

theorem degOpt_cons_some (c : ℚ) (cs : List ℚ) (d : Nat)
    (h : degOpt cs = some d) : degOpt (c :: cs) = some (d + 1) := by
  rw [degOpt_cons, h]

theorem degOpt_cons_none (c : ℚ) (cs : List ℚ) (h : degOpt cs = none) :
    degOpt (c :: cs) = if c = 0 then none else some 0 := by
  rw [degOpt_cons, h]

theorem degOpt_eq_none_coeff (p : List ℚ) (h : degOpt p = none) :
    ∀ i, coeffQ p i = 0 := by
  induction p with
  | nil => intro i; simp [coeffQ]
  | cons c cs ih =>
    intro i
    rcases hcs : degOpt cs with _ | d
    · rw [degOpt_cons_none c cs hcs] at h
      by_cases hc : c = 0
      · rcases i with _ | i'
        · rw [coeffQ_cons_zero]; exact hc
        · rw [coeffQ_cons_succ]; exact ih hcs i'
      · rw [if_neg hc] at h
        exact absurd h (by simp)
    · rw [degOpt_cons_some c cs d hcs] at h
      exact absurd h (by simp)

theorem degOpt_coeff_ne_zero (p : List ℚ) (d : Nat) (h : degOpt p = some d) :
    coeffQ p d ≠ 0 := by
  induction p generalizing d with
  | nil => exact absurd h (by simp [degOpt])
  | cons c cs ih =>
    rcases hcs : degOpt cs with _ | d'
    · rw [degOpt_cons_none c cs hcs] at h
      by_cases hc : c = 0
      · rw [if_pos hc] at h
        exact absurd h (by simp)
      · rw [if_neg hc, Option.some.injEq] at h
        rw [← h, coeffQ_cons_zero]
        exact hc
    · rw [degOpt_cons_some c cs d' hcs, Option.some.injEq] at h
      rw [← h, coeffQ_cons_succ]
      exact ih d' hcs

theorem degOpt_coeff_gt (p : List ℚ) (d : Nat) (h : degOpt p = some d) :
    ∀ i, d < i → coeffQ p i = 0 := by
  induction p generalizing d with
  | nil => exact absurd h (by simp [degOpt])
  | cons c cs ih =>
    intro i hdi
    rcases hcs : degOpt cs with _ | d'
    · rw [degOpt_cons_none c cs hcs] at h
      by_cases hc : c = 0
      · rw [if_pos hc] at h
        exact absurd h (by simp)
      · rw [if_neg hc, Option.some.injEq] at h
        rcases i with _ | i'
        · omega
        · rw [coeffQ_cons_succ]
          exact degOpt_eq_none_coeff cs hcs i'
    · rw [degOpt_cons_some c cs d' hcs, Option.some.injEq] at h
      rcases i with _ | i'
      · omega
      · rw [coeffQ_cons_succ]
        exact ih d' hcs i' (by omega)

theorem polyIsZero_iff_degOpt (p : List ℚ) :
    polyIsZero p = true ↔ degOpt p = none := by
  induction p with
  | nil => simp [polyIsZero, degOpt]
  | cons c cs ih =>
    unfold polyIsZero at ih ⊢
    rw [List.all_cons, Bool.and_eq_true, beq_iff_eq, ih]
    rcases hcs : degOpt cs with _ | d
    · rw [degOpt_cons_none c cs hcs]
      by_cases hc : c = 0
      · simp [hc]
      · simp [hc]
    · rw [degOpt_cons_some c cs d hcs]
      simp

theorem degOpt_of_not_zero (p : List ℚ) (h : polyIsZero p = false) :
    degOpt p = some (degN p) := by
  rcases hd : degOpt p with _ | d
  · rw [← polyIsZero_iff_degOpt] at hd
    rw [hd] at h
    exact absurd h (by simp)
  · rw [degN, hd]
    rfl

theorem coeffQ_neg_map (p : List ℚ) (i : Nat) :
    coeffQ (p.map (fun y => -y)) i = -(coeffQ p i) := by
  induction p generalizing i with
  | nil => simp [coeffQ]
  | cons c cs ih =>
    rcases i with _ | i'
    · rfl
    · simpa [coeffQ_cons_succ] using ih i'

theorem coeffQ_scale (c : ℚ) (p : List ℚ) (i : Nat) :
    coeffQ (polyScaleQ c p) i = c * coeffQ p i := by
  induction p generalizing i with
  | nil => simp [coeffQ, polyScaleQ]
  | cons x xs ih =>
    rcases i with _ | i'
    · rfl
    · simpa [polyScaleQ, coeffQ_cons_succ] using ih i'

theorem coeffQ_sub (a b : List ℚ) (i : Nat) :
    coeffQ (polySubQ a b) i = coeffQ a i - coeffQ b i := by
  induction a generalizing b i with
  | nil =>
    have hb : polySubQ [] b = b.map (fun y => -y) := by cases b <;> rfl
    rw [hb, coeffQ_neg_map]
    simp [coeffQ]
  | cons x xs ih =>
    rcases b with _ | ⟨y, ys⟩
    · rw [show polySubQ (x :: xs) [] = x :: xs from rfl]
      simp [coeffQ]
    · rcases i with _ | i'
      · rfl
      · rw [show polySubQ (x :: xs) (y :: ys) = (x - y) :: polySubQ xs ys
          from rfl]
        rw [coeffQ_cons_succ, coeffQ_cons_succ, coeffQ_cons_succ]
        exact ih ys i'

theorem coeffQ_shift (k : Nat) (p : List ℚ) (i : Nat) :
    coeffQ (shiftQ k p) i = if i < k then 0 else coeffQ p (i - k) := by
  induction k generalizing i with
  | zero => simp [shiftQ]
  | succ k' ih =>
    rw [show shiftQ (k' + 1) p = 0 :: shiftQ k' p from rfl]
    rcases i with _ | i'
    · simp [coeffQ_cons_zero]
    · rw [coeffQ_cons_succ, ih i']
      by_cases hik : i' < k'
      · rw [if_pos hik, if_pos (by omega)]
      · rw [if_neg hik, if_neg (by omega)]
        congr 1
        omega

theorem step_coeff_zero (A B : List ℚ) (hA : polyIsZero A = false)
    (hB : polyIsZero B = false) (hdeg : degN B ≤ degN A) :
    ∀ i, degN A ≤ i →
      coeffQ (polySubQ A (shiftQ (degN A - degN B)
        (polyScaleQ (leadQ A / leadQ B) B))) i = 0 := by
  intro i hi
  have hdA := degOpt_of_not_zero A hA
  have hdB := degOpt_of_not_zero B hB
  have hlB : leadQ B ≠ 0 := degOpt_coeff_ne_zero B (degN B) hdB
  rw [coeffQ_sub, coeffQ_shift]
  rcases Nat.eq_or_lt_of_le hi with heq | hlt
  · rw [if_neg (by omega)]
    rw [coeffQ_scale]
    rw [show i - (degN A - degN B) = degN B by omega]
    rw [show coeffQ B (degN B) = leadQ B from rfl, div_mul_cancel₀ _ hlB]
    rw [← heq]
    exact sub_self _
  · rw [degOpt_coeff_gt A (degN A) hdA i hlt]
    by_cases hik : i < degN A - degN B
    · rw [if_pos hik]
      ring
    · rw [if_neg hik, coeffQ_scale]
      rw [degOpt_coeff_gt B (degN B) hdB (i - (degN A - degN B)) (by omega)]
      ring

theorem step_deg_lt (A B : List ℚ) (hA : polyIsZero A = false)
    (hB : polyIsZero B = false) (hdeg : degN B ≤ degN A) :
    polyIsZero (polySubQ A (shiftQ (degN A - degN B)
      (polyScaleQ (leadQ A / leadQ B) B))) = true ∨
    degN (polySubQ A (shiftQ (degN A - degN B)
      (polyScaleQ (leadQ A / leadQ B) B))) < degN A := by
  set A2 := polySubQ A (shiftQ (degN A - degN B)
    (polyScaleQ (leadQ A / leadQ B) B)) with hA2
  rcases h2 : degOpt A2 with _ | d2
  · left
    exact (polyIsZero_iff_degOpt A2).mpr h2
  · right
    have hd2 : degN A2 = d2 := by rw [degN, h2]; rfl
    have hne := degOpt_coeff_ne_zero A2 d2 h2
    by_contra hcon
    rw [hd2] at hcon
    exact hne (step_coeff_zero A B hA hB hdeg d2 (by omega))

theorem divideWithRemainderAux_zero_dividend (fuel : Nat) (A B : List ℚ)
    (h : polyIsZero A = true) :
    (divideWithRemainderAux fuel A B).2 = A := by
  cases fuel with
  | zero => rfl
  | succ f => simp [divideWithRemainderAux, h]

theorem divideWithRemainderAux_rem (fuel : Nat) :
    ∀ A B : List ℚ, polyIsZero B = false → degN A < fuel →
    polyIsZero (divideWithRemainderAux fuel A B).2 = true ∨
    degN (divideWithRemainderAux fuel A B).2 < degN B := by
  induction fuel with
  | zero =>
    intro A B _ hfa
    omega
  | succ f ih =>
    intro A B hB hfa
    by_cases h1 : polyIsZero A = true
    · left
      rw [divideWithRemainderAux_zero_dividend (f + 1) A B h1]
      exact h1
    · by_cases h2 : degN A < degN B
      · right
        simp only [divideWithRemainderAux, h1, Bool.false_eq_true, if_false,
          h2, if_true]
      · have hA : polyIsZero A = false := by
          rcases hcase : polyIsZero A with _ | _
          · rfl
          · exact absurd hcase h1
        have hdeg : degN B ≤ degN A := by omega
        simp only [divideWithRemainderAux, h1, Bool.false_eq_true, if_false,
          h2]
        rcases step_deg_lt A B hA hB hdeg with hz | hlt
        · left
          rw [divideWithRemainderAux_zero_dividend f _ B hz]
          exact hz
        · exact ih _ B hB (by omega)

theorem divideWithRemainder_rem (A B : List ℚ) (hB : polyIsZero B = false) :
    polyIsZero (divideWithRemainder A B).2 = true ∨
    degN (divideWithRemainder A B).2 < degN B :=
  divideWithRemainderAux_rem (degN A + 1) A B hB (by omega)

theorem cfExpandAux_total (fuel : Nat) :
    ∀ (A B : List ℚ) (rail : Bool), polyIsZero A = false →
    polyIsZero B = false → degN A + degN B < fuel →
    ∃ st, cfExpandAux fuel A B rail = some st ∧ altB rail st = true ∧
      st.length ≤ degN A + degN B + 1 := by
  induction fuel with
  | zero =>
    intro A B rail _ _ hf
    omega
  | succ f ih =>
    intro A B rail hA hB hf
    by_cases hswap : degN A < degN B
    · -- the pair is swapped to (B, A); A becomes the divisor
      by_cases hrz : polyIsZero (divideWithRemainder B A).2 = true
      · refine ⟨[(rail, (divideWithRemainder B A).1)], ?_, ?_, ?_⟩
        · simp [cfExpandAux, hB, hswap, hrz]
        · simp [altB]
        · simp
      · have hrf : polyIsZero (divideWithRemainder B A).2 = false := by
          rcases hcase : polyIsZero (divideWithRemainder B A).2 with _ | _
          · rfl
          · exact absurd hcase hrz
        have hlt : degN (divideWithRemainder B A).2 < degN A := by
          rcases divideWithRemainder_rem B A hA with hz | hlt
          · exact absurd hz hrz
          · exact hlt
        obtain ⟨st', heq', halt', hlen'⟩ := ih A (divideWithRemainder B A).2
          (!rail) hA hrf (by omega)
        refine ⟨(rail, (divideWithRemainder B A).1) :: st', ?_, ?_, ?_⟩
        · simp [cfExpandAux, hB, hswap, hrz, heq']
        · simp [altB, halt']
        · simp only [List.length_cons]
          omega
    · -- no swap; B is the divisor
      by_cases hrz : polyIsZero (divideWithRemainder A B).2 = true
      · refine ⟨[(rail, (divideWithRemainder A B).1)], ?_, ?_, ?_⟩
        · simp [cfExpandAux, hB, hswap, hrz]
        · simp [altB]
        · simp
      · have hrf : polyIsZero (divideWithRemainder A B).2 = false := by
          rcases hcase : polyIsZero (divideWithRemainder A B).2 with _ | _
          · rfl
          · exact absurd hcase hrz
        have hlt : degN (divideWithRemainder A B).2 < degN B := by
          rcases divideWithRemainder_rem A B hB with hz | hlt
          · exact absurd hz hrz
          · exact hlt
        obtain ⟨st', heq', halt', hlen'⟩ := ih B (divideWithRemainder A B).2
          (!rail) hB hrf (by omega)
        refine ⟨(rail, (divideWithRemainder A B).1) :: st', ?_, ?_, ?_⟩
        · simp [cfExpandAux, hB, hswap, hrz, heq']
        · simp [altB, halt']
        · simp only [List.length_cons]
          omega

theorem altB_count (st : List (Bool × List ℚ)) : ∀ r, altB r st = true →
    st.countP (fun q => q.1 == r) = (st.length + 1) / 2 ∧
    st.countP (fun q => q.1 == !r) = st.length / 2 := by
  induction st with
  | nil =>
    intro r _
    simp
  | cons x xs ih =>
    intro r h
    have hx : x.1 = r ∧ altB (!r) xs = true := by
      rcases x with ⟨t, q⟩
      rw [show altB r ((t, q) :: xs) = ((t == r) && altB (!r) xs) from rfl,
        Bool.and_eq_true, beq_iff_eq] at h
      exact h
    obtain ⟨ca, cb⟩ := ih (!r) hx.2
    rw [Bool.not_not] at cb
    constructor
    · rw [List.countP_cons]
      simp only [hx.1, beq_self_eq_true, if_true, cond_true]
      rw [cb]
      simp only [List.length_cons]
      omega
    · rw [List.countP_cons]
      have : (x.1 == !r) = false := by
        rw [hx.1]
        cases r <;> simp
      simp only [this, cond_false]
      rw [ca]
      simp

theorem zTerms_length (st : List (Bool × List ℚ)) :
    (zTerms st).length = st.countP (fun q => q.1 == true) := by
  induction st with
  | nil => rfl
  | cons x xs ih =>
    rcases hx : x.1 with _ | _
    · rw [show zTerms (x :: xs) = zTerms xs by
        simp [zTerms, List.filterMap_cons, hx]]
      rw [List.countP_cons]
      simp [hx, ih]
    · rw [show zTerms (x :: xs) = x.2 :: zTerms xs by
        simp [zTerms, List.filterMap_cons, hx]]
      rw [List.countP_cons]
      simp [hx, ih]

theorem yTerms_length (st : List (Bool × List ℚ)) :
    (yTerms st).length = st.countP (fun q => q.1 == false) := by
  induction st with
  | nil => rfl
  | cons x xs ih =>
    rcases hx : x.1 with _ | _
    · rw [show yTerms (x :: xs) = x.2 :: yTerms xs by
        simp [yTerms, List.filterMap_cons, hx]]
      rw [List.countP_cons]
      simp [hx, ih]
    · rw [show yTerms (x :: xs) = yTerms xs by
        simp [yTerms, List.filterMap_cons, hx]]
      rw [List.countP_cons]
      simp [hx, ih]

/-- Claim C1: for every nonzero numerator and denominator, the modelled
Cauer-I expansion succeeds within the stage budget `deg N + deg D + 1`, its
stage tags strictly alternate starting on the impedance (Z) rail, and the
resulting Z and Y sequences satisfy `len Y ≤ len Z ≤ len Y + 1` (hence
`|len Z - len Y| ≤ 1`). -/
theorem c1_synthesis_shape (N D : List ℚ) (hN : polyIsZero N = false)
    (hD : polyIsZero D = false) :
    ∃ st, cfExpandAux (degN N + degN D + 1) N D true = some st ∧
      cfSynthesize N D = some (zTerms st, yTerms st) ∧
      altB true st = true ∧
      st.length ≤ degN N + degN D + 1 ∧
      (yTerms st).length ≤ (zTerms st).length ∧
      (zTerms st).length ≤ (yTerms st).length + 1 := by
  obtain ⟨st, heq, halt, hlen⟩ :=
    cfExpandAux_total (degN N + degN D + 1) N D true hN hD (by omega)
  obtain ⟨cz, cy⟩ := altB_count st true halt
  rw [Bool.not_true] at cy
  refine ⟨st, heq, ?_, halt, hlen, ?_, ?_⟩
  · unfold cfSynthesize
    rw [heq]
  · rw [zTerms_length, yTerms_length, cz, cy]
    omega
  · rw [zTerms_length, yTerms_length, cz, cy]
    omega

/-- Witness for C1 at H(s) = (s + 1) / s. -/
theorem c1_synthesis_shape_witness :
    ∃ st, cfExpandAux (degN [1, 1] + degN [0, 1] + 1) [1, 1] [0, 1] true =
        some st ∧
      cfSynthesize [1, 1] [0, 1] = some (zTerms st, yTerms st) ∧
      altB true st = true ∧
      st.length ≤ degN [1, 1] + degN [0, 1] + 1 ∧
      (yTerms st).length ≤ (zTerms st).length ∧
      (zTerms st).length ≤ (yTerms st).length + 1 :=
  c1_synthesis_shape [1, 1] [0, 1] (by decide) (by decide)

end LadderNetwork
